import Mathlib

/-!
Verification development for `thegraph/src/data/store.rs`: the typed attribute
value `Value`, the arbitrary-precision `BigInt`, the `Entity` map, and the
conversions between `graphql_parser` untyped query values and typed values.

Modelling conventions:
* Rust `String` / `&str` values are modelled as their character sequences
  (`List Char`); all strings this code inspects are ASCII, and UTF-8 byte
  order coincides with codepoint order, so nothing is lost.
* `u8` bytes are `Fin 256`; `i32` / `i64` are `Int` with explicit wrap-around
  where the Rust code casts.
* `f32` / `f64` are modelled by their IEEE-754 bit patterns (`F32`, `F64`).
* Rust panics (`expect`, `unimplemented!`) are modelled as the distinguished
  result `ConvError.panicked msg`: the constructor marks a process abort, not
  a recoverable error return.
-/

/-- Rust string contents, as a character sequence. -/
abbrev Str := List Char

/-- An entity attribute name is represented as a string (`type Attribute = String`). -/
abbrev Attribute := Str

/-- The constant `BYTES_SCALAR: &str = "Bytes"`. -/
def BYTES_SCALAR : Str := "Bytes".data

/-- The constant `BIG_INT_SCALAR: &str = "BigInt"`. -/
def BIG_INT_SCALAR : Str := "BigInt".data

/-! ## IEEE-754 bit-pattern model of `f32` and `f64` -/

/-- An `f32` value, by its IEEE-754 binary32 bit pattern (bits ≥ 2^32 are read
modulo 2^32). Sign is bit 31, exponent bits 30..23, mantissa bits 22..0. -/
structure F32 where
  bits : Nat
  deriving Repr, DecidableEq

/-- An `f64` value, by its IEEE-754 binary64 bit pattern. Sign is bit 63,
exponent bits 62..52, mantissa bits 51..0. -/
structure F64 where
  bits : Nat
  deriving Repr, DecidableEq

/-- Sign bit of an `f32`. -/
def F32.sgn (x : F32) : Nat := x.bits / 2 ^ 31 % 2

/-- Exponent field of an `f32`. -/
def F32.expf (x : F32) : Nat := x.bits / 2 ^ 23 % 2 ^ 8

/-- Mantissa field of an `f32`. -/
def F32.mant (x : F32) : Nat := x.bits % 2 ^ 23

/-- An `f32` is a NaN when its exponent field is all ones and its mantissa is
nonzero (any payload). -/
def F32.isNaN (x : F32) : Bool := x.expf = 255 ∧ x.mant ≠ 0

/-- An `f32` is a zero (of either sign) when all bits below the sign are 0. -/
def F32.isZero (x : F32) : Bool := x.bits % 2 ^ 31 % 2 ^ 32 = 0

/-- IEEE-754 (and Rust `f32::eq`) equality on `f32`: `false` whenever either
operand is NaN, `+0.0 == -0.0`, and otherwise equality of bit patterns
(every non-zero finite or infinite value has a unique pattern). -/
def f32Eq (x y : F32) : Bool :=
  if x.isNaN || y.isNaN then false
  else if x.isZero && y.isZero then true
  else x.bits % 2 ^ 32 = y.bits % 2 ^ 32

/-- Sign bit of an `f64`. -/
def F64.sgn (x : F64) : Nat := x.bits / 2 ^ 63 % 2

/-- Exponent field of an `f64`. -/
def F64.expf (x : F64) : Nat := x.bits / 2 ^ 52 % 2 ^ 11

/-- Mantissa field of an `f64`. -/
def F64.mant (x : F64) : Nat := x.bits % 2 ^ 52

/-- Round `M / 2^d` to the nearest integer, ties to even (the IEEE default
rounding used by Rust float casts). -/
def rneShift (M : Nat) (d : Nat) : Nat :=
  if d = 0 then M
  else
    let q := M / 2 ^ d
    let r := M % 2 ^ d
    let half := 2 ^ (d - 1)
    if r > half then q + 1
    else if r < half then q
    else if q % 2 = 0 then q else q + 1

/-- Scale `M` by `2^k` with round-to-nearest-even when `k < 0`. -/
def rneScale (M : Nat) (k : Int) : Nat :=
  if 0 ≤ k then M * 2 ^ k.toNat else rneShift M (-k).toNat

/-- Round the positive dyadic value `M * 2^E` (`M ≥ 1`) to the nearest
binary32 value with sign bit `s`, rounding to nearest, ties to even;
overflow gives an infinity, tiny values a subnormal or zero. -/
def roundPosToF32 (s : Nat) (M : Nat) (E : Int) : F32 :=
  let L : Int := (Nat.log2 M : Int) + 1
  let P : Int := E + L - 1
  if P < -126 then
    F32.mk (s * 2 ^ 31 + rneScale M (E + 149))
  else
    let S := rneScale M (E - P + 23)
    if S ≥ 2 ^ 24 then
      if P + 1 > 127 then F32.mk (s * 2 ^ 31 + 255 * 2 ^ 23)
      else F32.mk (s * 2 ^ 31 + (P + 1 + 127).toNat * 2 ^ 23 + (S / 2 - 2 ^ 23))
    else
      if P > 127 then F32.mk (s * 2 ^ 31 + 255 * 2 ^ 23)
      else F32.mk (s * 2 ^ 31 + (P + 127).toNat * 2 ^ 23 + (S - 2 ^ 23))

/-- The Rust cast `f as f32` narrowing an `f64` to an `f32` (IEEE round to
nearest, ties to even; NaN maps to the canonical quiet NaN with the sign
preserved). -/
def f64ToF32 (x : F64) : F32 :=
  if x.expf = 2047 then
    if x.mant = 0 then F32.mk (x.sgn * 2 ^ 31 + 255 * 2 ^ 23)
    else F32.mk (x.sgn * 2 ^ 31 + 255 * 2 ^ 23 + 2 ^ 22)
  else if x.expf = 0 ∧ x.mant = 0 then F32.mk (x.sgn * 2 ^ 31)
  else if x.expf = 0 then roundPosToF32 x.sgn x.mant (-1074)
  else roundPosToF32 x.sgn (2 ^ 52 + x.mant) ((x.expf : Int) - 1075)

/-- The lossless Rust widening `f32 → f64` (`f.into()` in
`From<Value> for query::Value`): every binary32 value is exactly
representable in binary64; NaN keeps its payload. -/
def f32ToF64 (x : F32) : F64 :=
  if x.expf = 255 then F64.mk (x.sgn * 2 ^ 63 + 2047 * 2 ^ 52 + x.mant * 2 ^ 29)
  else if x.expf = 0 ∧ x.mant = 0 then F64.mk (x.sgn * 2 ^ 63)
  else if x.expf = 0 then
    F64.mk (x.sgn * 2 ^ 63 + (Nat.log2 x.mant + 874) * 2 ^ 52 +
      (x.mant - 2 ^ Nat.log2 x.mant) * 2 ^ (52 - Nat.log2 x.mant))
  else F64.mk (x.sgn * 2 ^ 63 + (x.expf + 896) * 2 ^ 52 + x.mant * 2 ^ 29)

/-! ## The `hex` crate: `hex::decode` and `hex::encode` -/

/-- The `hex` crate's per-byte digit value: `b'A'..=b'F'`, `b'a'..=b'f'`,
`b'0'..=b'9'` are hex digits, everything else is an invalid character. -/
def hexCharVal (c : Char) : Option (Fin 16) :=
  let n := c.toNat
  if h : 65 ≤ n ∧ n ≤ 70 then some ⟨n - 65 + 10, by omega⟩
  else if h : 97 ≤ n ∧ n ≤ 102 then some ⟨n - 97 + 10, by omega⟩
  else if h : 48 ≤ n ∧ n ≤ 57 then some ⟨n - 48, by omega⟩
  else none

/-- `hex::decode`: an even number of hex digits decodes to bytes, pairwise;
odd length or an invalid character is an error (modelled as `none`). -/
def hexDecode : List Char → Option (List (Fin 256))
  | [] => some []
  | [_] => none
  | c1 :: c2 :: rest =>
    match hexCharVal c1, hexCharVal c2, hexDecode rest with
    | some hi, some lo, some bs => some (⟨hi.val * 16 + lo.val, by omega⟩ :: bs)
    | _, _, _ => none

/-- The lowercase hex digit table used by `hex::encode`. -/
def hexDigitChar (n : Fin 16) : Char :=
  match n.val with
  | 0 => '0' | 1 => '1' | 2 => '2' | 3 => '3' | 4 => '4' | 5 => '5' | 6 => '6' | 7 => '7'
  | 8 => '8' | 9 => '9' | 10 => 'a' | 11 => 'b' | 12 => 'c' | 13 => 'd' | 14 => 'e' | _ => 'f'

/-- `hex::encode`: each byte becomes two lowercase hex digits, high nibble
first. -/
def hexEncode : List (Fin 256) → List Char
  | [] => []
  | b :: bs =>
    hexDigitChar ⟨b.val / 16, by have := b.isLt; omega⟩ ::
    hexDigitChar ⟨b.val % 16, by have := b.isLt; omega⟩ :: hexEncode bs

/-- Rust `s.trim_left_matches("0x")`: repeatedly removes the prefix `0x`
for as long as the string starts with it. -/
def trimLeftMatches0x : List Char → List Char
  | c1 :: c2 :: rest =>
    if c1 = '0' ∧ c2 = 'x' then trimLeftMatches0x rest else c1 :: c2 :: rest
  | s => s

/-! ## `num_bigint`: `BigInt::from_str` and `Display for BigInt`

The model `BigInt` payload is Lean's unbounded `Int`. Parsing follows
`num_bigint`'s `from_str_radix` at radix 10: `BigInt` strips one leading `-`
(declining the strip when a `+` follows, so a mixed `-+` sign fails at the
digit check), `BigUint` then strips one leading `+` (unless another `+`
follows), rejects an empty or `_`-leading remainder, and folds the decimal
digits, skipping interior `_` characters. -/

/-- Decimal digit value at radix 10 (`b'0'..=b'9'`); letters fall outside the
radix and every other byte is invalid, so both are `none`. -/
def decDigitVal (c : Char) : Option Nat :=
  if 48 ≤ c.toNat ∧ c.toNat ≤ 57 then some (c.toNat - 48) else none

/-- The digit-folding loop of `BigUint::from_str_radix` at radix 10:
interior `_` bytes are skipped, any non-digit is an error. -/
def parseDecDigits : List Char → Nat → Option Nat
  | [], acc => some acc
  | c :: cs, acc =>
    if c = '_' then parseDecDigits cs acc
    else
      match decDigitVal c with
      | some d => parseDecDigits cs (acc * 10 + d)
      | none => none

/-- Body of `BigUint::from_str_radix(s, 10)` once the sign is handled:
rejects an empty or `_`-leading string, then folds the digits. -/
def bigUintBody (s : Str) : Option Nat :=
  if s = [] then none
  else if s.head? = some '_' then none
  else parseDecDigits s 0

/-- `BigUint::from_str_radix(s, 10)`: strips a single leading `+` (only when
not followed by another `+`), then parses the remainder. -/
def bigUintFromStr (s : Str) : Option Nat :=
  match s with
  | '+' :: rest => if rest.head? = some '+' then bigUintBody s else bigUintBody rest
  | _ => bigUintBody s

/-- `impl FromStr for BigInt` (via `BigInt::from_str_radix(s, 10)`): a single
leading `-` negates the magnitude parsed by `BigUint::from_str_radix`; the
strip is declined when the next character is `+`, so a mixed `-+` sign stays
in place and fails the digit check. -/
def bigIntFromStr (s : Str) : Option Int :=
  match s with
  | '-' :: rest =>
    if rest.head? = some '+' then (bigUintFromStr s).map (fun n => -(n : Int))
    else (bigUintFromStr rest).map (fun n => -(n : Int))
  | _ => (bigUintFromStr s).map (fun n => (n : Int))

/-- Decimal digit character for a digit value (`d < 10`; larger inputs are
clamped onto `'9'`, a case the callers never reach). -/
def decDigitChar (d : Nat) : Char :=
  match d with
  | 0 => '0' | 1 => '1' | 2 => '2' | 3 => '3' | 4 => '4'
  | 5 => '5' | 6 => '6' | 7 => '7' | 8 => '8' | _ => '9'

/-- Decimal digit accumulation of `num_bigint`'s `to_str_radix(10)`: digits of
`m`, most significant first, prepended to `acc`. -/
def natToDecimalAux : Nat → List Char → List Char
  | 0, acc => acc
  | m + 1, acc => natToDecimalAux ((m + 1) / 10) (decDigitChar ((m + 1) % 10) :: acc)
  decreasing_by exact Nat.div_lt_self (Nat.succ_pos m) (by omega)

/-- Decimal rendering of a natural number, `"0"` for zero, no leading zeros. -/
def natToDecimal (m : Nat) : List Char :=
  if m = 0 then ['0'] else natToDecimalAux m []

/-- Number of recursive steps of `natToDecimalAux`, i.e. the digit count of
`m` (0 for `m = 0`). -/
def decLen : Nat → Nat
  | 0 => 0
  | m + 1 => decLen ((m + 1) / 10) + 1
  decreasing_by exact Nat.div_lt_self (Nat.succ_pos m) (by omega)

/-- `impl Display for BigInt` (via `num_bigint`): plain decimal, `-` sign
exactly for negative values. -/
def bigIntToString (n : Int) : Str :=
  if n < 0 then '-' :: natToDecimal n.natAbs else natToDecimal n.natAbs

/-! ## `graphql_parser` untyped values and schema types -/

/-- `graphql_parser::query::Value`: the untyped query-language value. The
`Int` payload models `query::Number`, which wraps an `i64`; `Object` models
the `BTreeMap<String, Value>` as a key-sorted association list. -/
inductive QValue where
  | var (name : Str)
  | int (i : Int)
  | float (f : F64)
  | str (s : Str)
  | boolean (b : Bool)
  | null
  | enum (name : Str)
  | list (vs : List QValue)
  | object (fields : List (Str × QValue))
  deriving Repr

/-- `graphql_parser::schema::Type`: a named type, a list type, or a non-null
wrapper. -/
inductive SchemaType where
  | namedType (n : Str)
  | listType (t : SchemaType)
  | nonNullType (t : SchemaType)
  deriving Repr, DecidableEq

/-- How a conversion fails. The reference code never returns an error: every
failure is a Rust panic (`expect` / `unimplemented!`), i.e. a process abort.
`panicked msg` records the panic's message text. -/
inductive ConvError where
  | panicked (msg : Str)
  deriving Repr, DecidableEq

/-! ## The typed value -/

/-- `Value`: the typed attribute value, one variant per supported shape.
`int` carries the stored `i32` (an `Int` in wrap-around range), `float` an
`f32` bit pattern, `bytes` a raw byte sequence, `bigInt` an
arbitrary-precision integer. -/
inductive Value where
  | string (s : Str)
  | int (i : Int)
  | float (f : F32)
  | bool (b : Bool)
  | list (vs : List Value)
  | null
  | bytes (bs : List (Fin 256))
  | bigInt (n : Int)
  deriving Repr

/-- The Rust cast `i as i32` from a 64-bit (or wider) integer: two's
complement wrap-around into `[-2^31, 2^31)`. -/
def wrapToI32 (i : Int) : Int := (i + 2 ^ 31) % 2 ^ 32 - 2 ^ 31

/-- Elementwise conversion used for `values.iter().map(..).collect()` in the
list arm of `Value::from_query_value`; the first panic propagates. -/
def convList (f : QValue → Except ConvError Value) :
    List QValue → Except ConvError (List Value)
  | [] => .ok []
  | v :: vs =>
    match f v with
    | .error e => .error e
    | .ok x =>
      match convList f vs with
      | .error e => .error e
      | .ok xs => .ok (x :: xs)

/-- `Value::from_query_value(value, ty)`. Match arms in source order:
string against a named type (dispatch on `Bytes` / `BigInt` / fallback to
`String`), integer (narrowed by `as i32` after `as_i64`, which always
succeeds because `query::Number` wraps an `i64`), float (narrowed `as f32`),
boolean, list against a list type (elementwise recursion), null, and the
`unimplemented!()` wildcard, which panics with message `"not implemented"`.
The `Bytes` arm is
`hex::decode(s.trim_left_matches("0x")).expect("Value is not a hex string")`,
the `BigInt` arm `BigInt::from_str(s).expect("Value is not a number")`. -/
def from_query_value (value : QValue) (ty : SchemaType) : Except ConvError Value :=
  match value, ty with
  | .str s, .namedType n =>
    if n = BYTES_SCALAR then
      match hexDecode (trimLeftMatches0x s) with
      | some bs => .ok (.bytes bs)
      | none => .error (.panicked "Value is not a hex string".data)
    else if n = BIG_INT_SCALAR then
      match bigIntFromStr s with
      | some x => .ok (.bigInt x)
      | none => .error (.panicked "Value is not a number".data)
    else .ok (.string s)
  | .int i, _ => .ok (.int (wrapToI32 i))
  | .float f, _ => .ok (.float (f64ToF32 f))
  | .boolean b, _ => .ok (.bool b)
  | .list vs, .listType t => (convList (fun v => from_query_value v t) vs).map Value.list
  | .null, _ => .ok .null
  | _, _ => .error (.panicked "not implemented".data)

mutual

/-- `impl From<Value> for query::Value`: the rendering direction.
`Int` widens losslessly (`query::Number::from(i)`), `Float` widens `f32` to
`f64`, `Bytes` renders as `format!("0x{}", hex::encode(bytes))`, `BigInt` as
its decimal string. -/
def toQueryValue : Value → QValue
  | .string s => .str s
  | .int i => .int i
  | .float f => .float (f32ToF64 f)
  | .bool b => .boolean b
  | .null => .null
  | .list vs => .list (toQueryValueList vs)
  | .bytes bs => .str ('0' :: 'x' :: hexEncode bs)
  | .bigInt n => .str (bigIntToString n)

/-- Elementwise `From<Value> for query::Value` on a `Vec<Value>`. -/
def toQueryValueList : List Value → List QValue
  | [] => []
  | v :: vs => toQueryValue v :: toQueryValueList vs

end

mutual

/-- The `#[derive(PartialEq)]` equality of `Value`: structural on every
variant except `Float`, whose payload is compared by IEEE `f32` equality
(`NaN` is unequal to everything, including itself). -/
def valueEqRust : Value → Value → Bool
  | .string s, .string t => s = t
  | .int a, .int b => a = b
  | .float x, .float y => f32Eq x y
  | .bool a, .bool b => a = b
  | .list xs, .list ys => valueListEqRust xs ys
  | .null, .null => true
  | .bytes a, .bytes b => a = b
  | .bigInt a, .bigInt b => a = b
  | _, _ => false

/-- `Vec<Value>` equality: same length, elementwise `valueEqRust`. -/
def valueListEqRust : List Value → List Value → Bool
  | [], [] => true
  | x :: xs, y :: ys => valueEqRust x y && valueListEqRust xs ys
  | _, _ => false

end

mutual

/-- A value contains no `f32` NaN anywhere (down through lists). -/
def nanFree : Value → Bool
  | .float x => !x.isNaN
  | .list vs => nanFreeList vs
  | _ => true

/-- No element of the list contains an `f32` NaN. -/
def nanFreeList : List Value → Bool
  | [] => true
  | v :: vs => nanFree v && nanFreeList vs

end

/-! ## Entity -/

/-- `Entity(HashMap<Attribute, Value>)`, modelled as its list of entries;
the `HashMap` invariant is that keys are distinct, and iteration order is
arbitrary (theorems about order-independence quantify over permutations). -/
abbrev Entity := List (Attribute × Value)

/-- `HashMap::remove(&key)`: drop the entry with the given key. -/
def Entity.removeKey (e : Entity) (k : Attribute) : Entity :=
  e.filter (fun p => ¬ p.1 = k)

/-- `HashMap::insert(key, value)`: replace or add the entry for `key`. -/
def Entity.insertKey (e : Entity) (k : Attribute) (v : Value) : Entity :=
  e.removeKey k ++ [(k, v)]

/-- `HashMap::get(&key)` (through `Entity`'s `Deref`): the value stored at
`key`, if any. -/
def Entity.lookup (e : Entity) (k : Attribute) : Option Value :=
  (e.find? (fun p => p.1 = k)).map Prod.snd

/-- `Entity::merge(update)`: for every entry of `update`, a `Null` value
removes the key and any other value is inserted. -/
def Entity.merge (e : Entity) (update : Entity) : Entity :=
  update.foldl
    (fun acc kv =>
      match kv.2 with
      | Value.null => acc.removeKey kv.1
      | _ => acc.insertKey kv.1 kv.2)
    e

/-- Strict lexicographic order on strings, character by character: the order
`Ord for String` gives a `BTreeMap<String, _>` (byte order on UTF-8 equals
codepoint order). -/
def strLt : Str → Str → Bool
  | [], [] => false
  | [], _ :: _ => true
  | _ :: _, [] => false
  | c :: cs, d :: ds => if c < d then true else if d < c then false else strLt cs ds

/-- `BTreeMap::insert`: place `(k, v)` at its ordered position, replacing an
existing entry with the same key. -/
def btreeInsert (k : Str) (v : QValue) :
    List (Str × QValue) → List (Str × QValue)
  | [] => [(k, v)]
  | (k', v') :: rest =>
    if strLt k k' then (k, v) :: (k', v') :: rest
    else if k = k' then (k, v) :: rest
    else (k', v') :: btreeInsert k v rest

/-- `impl Into<query::Value> for Entity`: each `(attr, value)` entry is
converted with `From<Value> for query::Value` and inserted into a fresh
`BTreeMap`; the result is `query::Value::Object` of that ordered map. -/
def entityToQValue (e : Entity) : QValue :=
  QValue.object
    (e.foldl (fun fields p => btreeInsert p.1 (toQueryValue p.2) fields) [])
-- appended to defs for testing
theorem hexCharVal_hexDigitChar : ∀ n : Fin 16, hexCharVal (hexDigitChar n) = some n := by
  decide

theorem hexDigitChar_ne_x : ∀ n : Fin 16, hexDigitChar n ≠ 'x' := by
  decide

theorem hexDecode_hexEncode (bs : List (Fin 256)) : hexDecode (hexEncode bs) = some bs := by
  induction bs with
  | nil => rfl
  | cons b bs ih =>
    simp only [hexEncode, hexDecode, hexCharVal_hexDigitChar _, ih]
    have hb : (⟨b.val / 16 * 16 + b.val % 16, by have := b.isLt; omega⟩ : Fin 256) = b := by
      apply Fin.ext
      simp
      omega
    simp [hb]

theorem trimLeftMatches0x_hexEncode (bs : List (Fin 256)) :
    trimLeftMatches0x (hexEncode bs) = hexEncode bs := by
  cases bs with
  | nil => rfl
  | cons b bs =>
    simp only [hexEncode, trimLeftMatches0x]
    rw [if_neg]
    rintro ⟨-, h2⟩
    exact hexDigitChar_ne_x _ h2

theorem trimLeftMatches0x_prefixed_hexEncode (bs : List (Fin 256)) :
    trimLeftMatches0x ('0' :: 'x' :: hexEncode bs) = hexEncode bs := by
  rw [trimLeftMatches0x, if_pos ⟨rfl, rfl⟩]
  exact trimLeftMatches0x_hexEncode bs

/-- C1: converting `Bytes(b)` to an untyped query value and back with declared
type `"Bytes"` yields exactly `Bytes(b)` again, for every byte sequence. -/
theorem bytes_round_trip (bs : List (Fin 256)) :
    from_query_value (toQueryValue (.bytes bs)) (.namedType BYTES_SCALAR) = .ok (.bytes bs) := by
  simp only [toQueryValue, from_query_value, if_pos rfl]
  rw [trimLeftMatches0x_prefixed_hexEncode, hexDecode_hexEncode]
  simp

/-- C2 (code bug evidence): the integer literal 4294967296, outside the 32-bit
signed range, is silently truncated by the `as i32` cast to `Int(0)` for every
declared type; no failure is reported. -/
theorem int_literal_silently_truncates :
    ∀ ty : SchemaType, from_query_value (.int 4294967296) ty = .ok (.int 0) := by
  intro ty
  cases ty <;> rfl

/-- C3 (code bug evidence): a list literal against any named (scalar) type
falls into the `unimplemented!()` wildcard arm, so the reference code panics
(a process abort with message "not implemented") instead of returning an
`UnsupportedValueTypeCombination` error. -/
theorem list_scalar_panics :
    ∀ (vs : List QValue) (n : Str),
      from_query_value (.list vs) (.namedType n) =
        .error (.panicked "not implemented".data) := by
  intro vs n
  rfl
theorem decDigitChar_toNat (d : Nat) :
    48 ≤ (decDigitChar d).toNat ∧ (decDigitChar d).toNat ≤ 57 := by
  unfold decDigitChar
  split <;> decide

theorem decDigitVal_decDigitChar (r : Nat) (h : r < 10) :
    decDigitVal (decDigitChar r) = some r := by
  interval_cases r <;> rfl

theorem decDigitChar_ne_underscore (r : Nat) : decDigitChar r ≠ '_' := by
  intro hc
  have h := decDigitChar_toNat r
  rw [hc] at h
  exact (by decide : ¬(48 ≤ '_'.toNat ∧ '_'.toNat ≤ 57)) h

theorem decDigitChar_ne_plus (r : Nat) : decDigitChar r ≠ '+' := by
  intro hc
  have h := decDigitChar_toNat r
  rw [hc] at h
  exact (by decide : ¬(48 ≤ '+'.toNat ∧ '+'.toNat ≤ 57)) h

theorem decDigitChar_ne_minus (r : Nat) : decDigitChar r ≠ '-' := by
  intro hc
  have h := decDigitChar_toNat r
  rw [hc] at h
  exact (by decide : ¬(48 ≤ '-'.toNat ∧ '-'.toNat ≤ 57)) h

theorem parse_step (r : Nat) (h : r < 10) (cs : Str) (a : Nat) :
    parseDecDigits (decDigitChar r :: cs) a = parseDecDigits cs (a * 10 + r) := by
  rw [parseDecDigits, if_neg (decDigitChar_ne_underscore r), decDigitVal_decDigitChar r h]

theorem parse_natToDecimalAux :
    ∀ m cs a, parseDecDigits (natToDecimalAux m cs) a =
      parseDecDigits cs (a * 10 ^ decLen m + m) := by
  intro m
  induction m using Nat.strong_induction_on with
  | _ m ih =>
    intro cs a
    cases m with
    | zero => simp [natToDecimalAux, decLen]
    | succ k =>
      rw [natToDecimalAux, ih ((k + 1) / 10) (by omega),
        parse_step ((k + 1) % 10) (by omega)]
      simp only [decLen]
      congr 1
      have hq : (k + 1) / 10 * 10 + (k + 1) % 10 = k + 1 := by omega
      calc (a * 10 ^ decLen ((k + 1) / 10) + (k + 1) / 10) * 10 + (k + 1) % 10
          = a * (10 ^ decLen ((k + 1) / 10) * 10) + ((k + 1) / 10 * 10 + (k + 1) % 10) := by
            ring
        _ = a * 10 ^ (decLen ((k + 1) / 10) + 1) + (k + 1) := by rw [pow_succ, hq]

theorem natToDecimalAux_shape :
    ∀ m, 0 < m → ∀ cs, ∃ r tail, r < 10 ∧ natToDecimalAux m cs = decDigitChar r :: tail := by
  intro m
  induction m using Nat.strong_induction_on with
  | _ m ih =>
    intro hm cs
    cases m with
    | zero => omega
    | succ k =>
      rw [natToDecimalAux]
      by_cases h10 : (k + 1) / 10 = 0
      · rw [h10]
        exact ⟨(k + 1) % 10, cs, by omega, by rw [natToDecimalAux]⟩
      · exact ih ((k + 1) / 10) (by omega) (Nat.pos_of_ne_zero h10) _

theorem natToDecimal_shape (m : Nat) :
    ∃ r tail, r < 10 ∧ natToDecimal m = decDigitChar r :: tail := by
  by_cases h : m = 0
  · exact ⟨0, [], by omega, by rw [h]; rfl⟩
  · rw [natToDecimal, if_neg h]
    exact natToDecimalAux_shape m (Nat.pos_of_ne_zero h) []

theorem parse_natToDecimal (m : Nat) : parseDecDigits (natToDecimal m) 0 = some m := by
  by_cases h : m = 0
  · rw [h]; rfl
  · rw [natToDecimal, if_neg h, parse_natToDecimalAux]
    show some (0 * 10 ^ decLen m + m) = some m
    norm_num

theorem bigUintFromStr_eq_body (s : Str) (h : s.head? ≠ some '+') :
    bigUintFromStr s = bigUintBody s := by
  cases s with
  | nil => rfl
  | cons c cs =>
    simp only [List.head?] at h
    unfold bigUintFromStr
    split
    · rename_i heq
      rw [List.cons.injEq] at heq
      exact absurd (by rw [heq.1]) h
    · rfl

theorem bigUintFromStr_natToDecimal (m : Nat) : bigUintFromStr (natToDecimal m) = some m := by
  obtain ⟨r, tail, hr, heq⟩ := natToDecimal_shape m
  have h1 : (natToDecimal m).head? ≠ some '+' := by
    rw [heq]
    simp [decDigitChar_ne_plus r]
  rw [bigUintFromStr_eq_body _ h1]
  unfold bigUintBody
  rw [if_neg (by rw [heq]; simp), if_neg (by rw [heq]; simp [decDigitChar_ne_underscore r]),
    parse_natToDecimal]

theorem bigIntFromStr_not_minus (s : Str) (h : s.head? ≠ some '-') :
    bigIntFromStr s = (bigUintFromStr s).map (fun n => (n : Int)) := by
  cases s with
  | nil => rfl
  | cons c cs =>
    simp only [List.head?] at h
    unfold bigIntFromStr
    split
    · rename_i heq
      rw [List.cons.injEq] at heq
      exact absurd (by rw [heq.1]) h
    · rfl

theorem bigIntFromStr_bigIntToString (n : Int) :
    bigIntFromStr (bigIntToString n) = some n := by
  rcases le_or_lt 0 n with hn | hn
  · rw [bigIntToString, if_neg (by omega)]
    have hhead : (natToDecimal n.natAbs).head? ≠ some '-' := by
      obtain ⟨r, tail, hr, heq⟩ := natToDecimal_shape n.natAbs
      rw [heq]
      simp [decDigitChar_ne_minus r]
    rw [bigIntFromStr_not_minus _ hhead, bigUintFromStr_natToDecimal]
    simp [Int.natAbs_of_nonneg hn]
  · rw [bigIntToString, if_pos hn]
    rw [bigIntFromStr]
    obtain ⟨r, tail, hr, heq⟩ := natToDecimal_shape n.natAbs
    rw [if_neg (by rw [heq]; simp [decDigitChar_ne_plus r]), bigUintFromStr_natToDecimal]
    show some (-(n.natAbs : Int)) = some n
    congr 1
    omega

/-- C4: for every decimal text `t` that `BigInt` parsing accepts, converting
the typed value `BigInt(parse(t))` to an untyped query value and back with
declared type `"BigInt"` yields the same `BigInt` value, decimal formatting
preserved. -/
theorem bigint_round_trip (t : Str) (n : Int) (h : bigIntFromStr t = some n) :
    from_query_value (toQueryValue (.bigInt n)) (.namedType BIG_INT_SCALAR) =
      .ok (.bigInt n) := by
  have h1 : toQueryValue (Value.bigInt n) = QValue.str (bigIntToString n) := rfl
  have h2 : from_query_value (QValue.str (bigIntToString n)) (.namedType BIG_INT_SCALAR) =
      match bigIntFromStr (bigIntToString n) with
      | some x => Except.ok (Value.bigInt x)
      | none => Except.error (ConvError.panicked "Value is not a number".data) := rfl
  rw [h1, h2, bigIntFromStr_bigIntToString]

/-- Witness for C4 at the spec's example text, 2^128. -/
theorem bigint_round_trip_witness :
    bigIntFromStr "340282366920938463463374607431768211456".data =
      some 340282366920938463463374607431768211456
    ∧ from_query_value (toQueryValue (.bigInt 340282366920938463463374607431768211456))
        (.namedType BIG_INT_SCALAR) =
        .ok (.bigInt 340282366920938463463374607431768211456) :=
  ⟨rfl,
    bigint_round_trip "340282366920938463463374607431768211456".data
      340282366920938463463374607431768211456 rfl⟩
theorem hexDigitChar_mem_lower : ∀ n : Fin 16, hexDigitChar n ∈ "0123456789abcdef".data := by
  decide

theorem hexEncode_mem_lower (bs : List (Fin 256)) :
    ∀ c ∈ hexEncode bs, c ∈ "0123456789abcdef".data := by
  induction bs with
  | nil => intro c hc; cases hc
  | cons b bs ih =>
    intro c hc
    rcases hc with _ | ⟨_, hc⟩
    · exact hexDigitChar_mem_lower _
    · rcases hc with _ | ⟨_, hc⟩
      · exact hexDigitChar_mem_lower _
      · exact ih c hc

theorem hexCharVal_case_fold (c d : Char) (hc1 : 65 ≤ c.toNat) (hc2 : c.toNat ≤ 90)
    (hd : d.toNat = c.toNat + 32) : hexCharVal c = hexCharVal d := by
  unfold hexCharVal
  dsimp only
  split_ifs <;> first
    | rfl
    | omega
    | (apply congrArg; apply Fin.ext; simp; omega)

/-- C7: hex decoding with declared type `"Bytes"` accepts both uppercase and
lowercase hex digits (an ASCII letter and its lowercase form carry the same
digit value), while re-encoding the decoded bytes always yields lowercase hex
behind a single `0x` prefix. -/
theorem hex_case_insensitive_lowercase_out (s : Str) (bs : List (Fin 256))
    (h : hexDecode (trimLeftMatches0x s) = some bs) :
    from_query_value (.str s) (.namedType BYTES_SCALAR) = .ok (.bytes bs)
    ∧ toQueryValue (.bytes bs) = .str ('0' :: 'x' :: hexEncode bs)
    ∧ (∀ c ∈ hexEncode bs, c ∈ "0123456789abcdef".data)
    ∧ (∀ c d : Char, 65 ≤ c.toNat → c.toNat ≤ 90 → d.toNat = c.toNat + 32 →
        hexCharVal c = hexCharVal d) := by
  refine ⟨?_, rfl, hexEncode_mem_lower bs, hexCharVal_case_fold⟩
  have h2 : from_query_value (QValue.str s) (.namedType BYTES_SCALAR) =
      match hexDecode (trimLeftMatches0x s) with
      | some bs => Except.ok (Value.bytes bs)
      | none => Except.error (ConvError.panicked "Value is not a hex string".data) := rfl
  rw [h2, h]

/-- Witness for C7 at the mixed-case input `"0x8F4a"`. -/
theorem hex_case_insensitive_lowercase_out_witness :
    hexDecode (trimLeftMatches0x "0x8F4a".data) = some [143, 74]
    ∧ (from_query_value (.str "0x8F4a".data) (.namedType BYTES_SCALAR) = .ok (.bytes [143, 74])
      ∧ toQueryValue (.bytes [143, 74]) = .str ('0' :: 'x' :: hexEncode [143, 74])
      ∧ (∀ c ∈ hexEncode [143, 74], c ∈ "0123456789abcdef".data)
      ∧ (∀ c d : Char, 65 ≤ c.toNat → c.toNat ≤ 90 → d.toNat = c.toNat + 32 →
          hexCharVal c = hexCharVal d)) :=
  ⟨rfl, hex_case_insensitive_lowercase_out "0x8F4a".data [143, 74] rfl⟩

/-- C8 counterexample: the conversion does not strip at most one `0x` prefix
and does not surface invalid hex as a recoverable error: `"0x0xab"` (whose
remainder after one strip is not valid hex) decodes successfully because every
leading `0x` repetition is stripped, and `"0xzz"` makes the code panic. -/
theorem bytes_prefix_claim_counterexample :
    from_query_value (.str "0x0xab".data) (.namedType BYTES_SCALAR) = .ok (.bytes [171])
    ∧ from_query_value (.str "0xzz".data) (.namedType BYTES_SCALAR) =
        .error (.panicked "Value is not a hex string".data) :=
  ⟨rfl, rfl⟩

/-- C8 (amended): with declared type `"Bytes"`, the conversion strips every
leading repetition of `0x` from the string and hex-decodes the remainder;
it succeeds with `Bytes` of the decoded bytes exactly when that remainder is
valid hex, and otherwise panics (a process abort, message "Value is not a hex
string") rather than returning an explicit `InvalidHex` error. -/
theorem bytes_conversion_amended (s : Str) :
    (∀ bs, from_query_value (.str s) (.namedType BYTES_SCALAR) = .ok (.bytes bs) ↔
      hexDecode (trimLeftMatches0x s) = some bs)
    ∧ (hexDecode (trimLeftMatches0x s) = none →
        from_query_value (.str s) (.namedType BYTES_SCALAR) =
          .error (.panicked "Value is not a hex string".data))
    ∧ trimLeftMatches0x ('0' :: 'x' :: s) = trimLeftMatches0x s := by
  have h2 : from_query_value (QValue.str s) (.namedType BYTES_SCALAR) =
      match hexDecode (trimLeftMatches0x s) with
      | some bs => Except.ok (Value.bytes bs)
      | none => Except.error (ConvError.panicked "Value is not a hex string".data) := rfl
  refine ⟨?_, ?_, ?_⟩
  · intro bs
    rw [h2]
    cases hd : hexDecode (trimLeftMatches0x s) with
    | none => simp
    | some bs' => simp
  · intro hd
    rw [h2, hd]
  · rw [trimLeftMatches0x, if_pos ⟨rfl, rfl⟩]
theorem f32Eq_refl_of_not_nan (x : F32) (h : x.isNaN = false) : f32Eq x x = true := by
  unfold f32Eq
  rw [h]
  simp

mutual

theorem valueEqRust_refl (v : Value) (h : nanFree v = true) : valueEqRust v v = true := by
  cases v with
  | string s => simp [valueEqRust]
  | int i => simp [valueEqRust]
  | float x =>
    simp only [nanFree, Bool.not_eq_true'] at h
    simp only [valueEqRust]
    exact f32Eq_refl_of_not_nan x h
  | bool b => simp [valueEqRust]
  | list vs =>
    simp only [nanFree] at h
    simp only [valueEqRust]
    exact valueListEqRust_refl vs h
  | null => rfl
  | bytes bs => simp [valueEqRust]
  | bigInt n => simp [valueEqRust]

theorem valueListEqRust_refl (vs : List Value) (h : nanFreeList vs = true) :
    valueListEqRust vs vs = true := by
  cases vs with
  | nil => rfl
  | cons v vs =>
    simp only [nanFreeList, Bool.and_eq_true] at h
    simp only [valueListEqRust, Bool.and_eq_true]
    exact ⟨valueEqRust_refl v h.1, valueListEqRust_refl vs h.2⟩

end

/-- C10 counterexample: a `List` value containing `Float(NaN)` also compares
unequal to itself, so reflexivity does not fail at the `Float` variant alone:
the claim's "every other variant compares equal to itself" is false for
`List([Float(NaN)])`. -/
theorem value_equality_claim_counterexample :
    valueEqRust (.list [.float ⟨0x7FC00000⟩]) (.list [.float ⟨0x7FC00000⟩]) = false := rfl

/-- C10 (amended): derived `Value` equality is not reflexive exactly at values
containing an `f32` NaN: `Float(x)` with NaN `x` compares unequal to itself
(for every NaN payload), while every value that contains no NaN anywhere
(down through lists) compares equal to itself. -/
theorem value_equality_reflexivity_amended :
    (∀ x : F32, x.isNaN = true → valueEqRust (.float x) (.float x) = false)
    ∧ (∀ v : Value, nanFree v = true → valueEqRust v v = true) := by
  constructor
  · intro x h
    simp [valueEqRust, f32Eq, h]
  · exact fun v h => valueEqRust_refl v h
theorem decDigitVal_plus_isSome : (decDigitVal '+').isSome = false := by decide

theorem decDigitVal_minus_isSome : (decDigitVal '-').isSome = false := by decide

theorem parseDecDigits_isSome (cs : Str) : ∀ a : Nat,
    (parseDecDigits cs a).isSome = true ↔
      (∀ c ∈ cs, c = '_' ∨ (decDigitVal c).isSome = true) := by
  induction cs with
  | nil => intro a; simp [parseDecDigits]
  | cons c cs ih =>
    intro a
    by_cases hc : c = '_'
    · subst hc
      rw [parseDecDigits, if_pos rfl, ih]
      simp [List.forall_mem_cons]
    · rw [parseDecDigits, if_neg hc]
      cases hd : decDigitVal c with
      | some d =>
        rw [ih]
        simp [List.forall_mem_cons, hc, hd]
      | none =>
        simp [List.forall_mem_cons, hc, hd]

theorem bigUintBody_isSome (s : Str) :
    (bigUintBody s).isSome = true ↔
    ∃ c cs, s = c :: cs ∧ (decDigitVal c).isSome = true ∧
      (∀ d ∈ cs, d = '_' ∨ (decDigitVal d).isSome = true) := by
  cases s with
  | nil => simp [bigUintBody]
  | cons c cs =>
    rw [bigUintBody, if_neg (by simp)]
    by_cases hc : c = '_'
    · subst hc
      rw [if_pos (show ('_' :: cs).head? = some '_' from rfl)]
      simp [List.cons.injEq, decDigitVal]
    · rw [if_neg (by simp [hc]), parseDecDigits_isSome]
      simp only [List.forall_mem_cons, List.cons.injEq]
      constructor
      · rintro ⟨h1, h2⟩
        rcases h1 with h1 | h1
        · exact absurd h1 hc
        · exact ⟨c, cs, ⟨rfl, rfl⟩, h1, h2⟩
      · rintro ⟨c', cs', ⟨rfl, rfl⟩, h1, h2⟩
        exact ⟨Or.inr h1, h2⟩

theorem bigUintFromStr_isSome (s : Str) :
    (bigUintFromStr s).isSome = true ↔
    ∃ pre body : Str, (pre = [] ∨ pre = ['+']) ∧ s = pre ++ body ∧
      (∃ c cs, body = c :: cs ∧ (decDigitVal c).isSome = true ∧
        (∀ d ∈ cs, d = '_' ∨ (decDigitVal d).isSome = true)) := by
  cases s with
  | nil =>
    rw [show bigUintFromStr [] = none from rfl]
    simp only [Option.isSome_none, Bool.false_eq_true, false_iff]
    rintro ⟨pre, body, hpre, heq, c', cs', hbody, -, -⟩
    rcases hpre with rfl | rfl
    · simp [hbody] at heq
    · simp at heq
  | cons c cs =>
    by_cases hc : c = '+'
    · subst hc
      rw [show bigUintFromStr ('+' :: cs) =
        if cs.head? = some '+' then bigUintBody ('+' :: cs) else bigUintBody cs from rfl]
      by_cases h2 : cs.head? = some '+'
      · rw [if_pos h2, bigUintBody_isSome]
        constructor
        · rintro ⟨c', cs', heq, hdig, -⟩
          rw [List.cons.injEq] at heq
          rw [← heq.1] at hdig
          simp [decDigitVal_plus_isSome] at hdig
        · rintro ⟨pre, body, hpre, heq, c', cs', hbody, hdig, -⟩
          rcases hpre with rfl | rfl
          · simp only [List.nil_append] at heq
            rw [← heq, List.cons.injEq] at hbody
            rw [← hbody.1] at hdig
            simp [decDigitVal_plus_isSome] at hdig
          · simp only [List.cons_append, List.nil_append, List.cons.injEq, true_and] at heq
            rw [← heq] at hbody
            rcases cs with _ | ⟨c0, cs0⟩
            · simp at h2
            · simp only [List.head?, Option.some.injEq] at h2
              rw [List.cons.injEq] at hbody
              rw [← hbody.1, h2] at hdig
              simp [decDigitVal_plus_isSome] at hdig
      · rw [if_neg h2, bigUintBody_isSome]
        constructor
        · rintro ⟨c', cs', hbody, hdig, hrest⟩
          exact ⟨['+'], cs, Or.inr rfl, rfl, c', cs', hbody, hdig, hrest⟩
        · rintro ⟨pre, body, hpre, heq, c', cs', hbody, hdig, hrest⟩
          rcases hpre with rfl | rfl
          · simp only [List.nil_append] at heq
            rw [← heq, List.cons.injEq] at hbody
            rw [← hbody.1] at hdig
            simp [decDigitVal_plus_isSome] at hdig
          · simp only [List.cons_append, List.nil_append, List.cons.injEq, true_and] at heq
            subst heq
            exact ⟨c', cs', hbody, hdig, hrest⟩
    · rw [bigUintFromStr_eq_body _ (by simp [hc]), bigUintBody_isSome]
      constructor
      · rintro ⟨c', cs', hbody, hdig, hrest⟩
        exact ⟨[], c :: cs, Or.inl rfl, rfl, c', cs', hbody, hdig, hrest⟩
      · rintro ⟨pre, body, hpre, heq, c', cs', hbody, hdig, hrest⟩
        rcases hpre with rfl | rfl
        · simp only [List.nil_append] at heq
          exact ⟨c', cs', heq.trans hbody, hdig, hrest⟩
        · simp only [List.cons_append, List.nil_append, List.cons.injEq] at heq
          exact absurd heq.1 hc
/-- C9 counterexample: `BigInt` parsing accepts texts outside the
"optional leading `-` followed by decimal digits only" grammar: a leading `+`
and interior underscores are accepted. -/
theorem bigint_parse_claim_counterexample :
    bigIntFromStr "+1".data = some 1 ∧ bigIntFromStr "1_0".data = some 10 := ⟨rfl, rfl⟩

theorem bigIntFromStr_isSome_minus (cs : Str) :
    (bigIntFromStr ('-' :: cs)).isSome =
      if cs.head? = some '+' then (bigUintFromStr ('-' :: cs)).isSome
      else (bigUintFromStr cs).isSome := by
  simp only [bigIntFromStr]
  split_ifs with h
  · cases bigUintFromStr ('-' :: cs) <;> rfl
  · cases bigUintFromStr cs <;> rfl

theorem bigIntFromStr_isSome_not_minus (s : Str) (h : s.head? ≠ some '-') :
    (bigIntFromStr s).isSome = (bigUintFromStr s).isSome := by
  rw [bigIntFromStr_not_minus s h]
  cases bigUintFromStr s <;> rfl

/-- C9 (amended): `BigInt` parsing from text succeeds exactly on an optional
single leading sign, `-` or `+`, followed by a decimal digit and then any
mix of decimal digits and underscores (underscores are skipped); every other
text, mixed signs included, fails (the `ParseBigIntError` the spec calls
`InvalidNumber`). -/
theorem bigint_parse_grammar_amended (s : Str) :
    (bigIntFromStr s).isSome = true ↔
    ∃ pre body : Str,
      (pre = [] ∨ pre = ['-'] ∨ pre = ['+']) ∧ s = pre ++ body ∧
      (∃ c cs, body = c :: cs ∧ (decDigitVal c).isSome = true ∧
        (∀ d ∈ cs, d = '_' ∨ (decDigitVal d).isSome = true)) := by
  cases s with
  | nil =>
    rw [show bigIntFromStr [] = none from rfl]
    simp only [Option.isSome_none, Bool.false_eq_true, false_iff]
    rintro ⟨pre, body, hpre, heq, c', cs', hbody, -, -⟩
    rcases hpre with rfl | rfl | rfl <;> simp [hbody] at heq
  | cons c cs =>
    by_cases hc : c = '-'
    · subst hc
      rw [bigIntFromStr_isSome_minus]
      by_cases h2 : cs.head? = some '+'
      · rw [if_pos h2]
        rw [bigUintFromStr_eq_body _ (by simp), bigUintBody_isSome]
        constructor
        · rintro ⟨c', cs', heq, hdig, -⟩
          rw [List.cons.injEq] at heq
          rw [← heq.1] at hdig
          simp [decDigitVal_minus_isSome] at hdig
        · rintro ⟨pre, body, hpre, heq, c', cs', hbody, hdig, -⟩
          rcases hpre with rfl | rfl | rfl
          · simp only [List.nil_append] at heq
            rw [← heq, List.cons.injEq] at hbody
            rw [← hbody.1] at hdig
            simp [decDigitVal_minus_isSome] at hdig
          · simp only [List.cons_append, List.nil_append, List.cons.injEq, true_and] at heq
            rw [← heq] at hbody
            rcases cs with _ | ⟨c0, cs0⟩
            · simp at h2
            · simp only [List.head?, Option.some.injEq] at h2
              rw [List.cons.injEq] at hbody
              rw [← hbody.1, h2] at hdig
              simp [decDigitVal_plus_isSome] at hdig
          · simp only [List.cons_append, List.nil_append, List.cons.injEq] at heq
            exact absurd heq.1 (by decide)
      · rw [if_neg h2]
        rw [bigUintFromStr_isSome]
        constructor
        · rintro ⟨pre', body, hpre', heq, hbody⟩
          rcases hpre' with rfl | rfl
          · simp only [List.nil_append] at heq
            exact ⟨['-'], body, by tauto, by rw [heq]; rfl, hbody⟩
          · rw [heq] at h2
            simp at h2
        · rintro ⟨pre, body, hpre, heq, c', cs', hbody, hdig, hrest⟩
          rcases hpre with rfl | rfl | rfl
          · simp only [List.nil_append] at heq
            rw [← heq, List.cons.injEq] at hbody
            rw [← hbody.1] at hdig
            simp [decDigitVal_minus_isSome] at hdig
          · simp only [List.cons_append, List.nil_append, List.cons.injEq, true_and] at heq
            exact ⟨[], body, Or.inl rfl, heq, c', cs', hbody, hdig, hrest⟩
          · simp only [List.cons_append, List.nil_append, List.cons.injEq] at heq
            exact absurd heq.1 (by decide)
    · rw [bigIntFromStr_isSome_not_minus _ (by simp [hc])]
      rw [bigUintFromStr_isSome]
      constructor
      · rintro ⟨pre, body, hpre, heq, hbody⟩
        rcases hpre with rfl | rfl
        · exact ⟨[], body, by tauto, heq, hbody⟩
        · exact ⟨['+'], body, by tauto, heq, hbody⟩
      · rintro ⟨pre, body, hpre, heq, hbody⟩
        rcases hpre with rfl | rfl | rfl
        · exact ⟨[], body, Or.inl rfl, heq, hbody⟩
        · simp only [List.cons_append, List.nil_append, List.cons.injEq] at heq
          exact absurd heq.1 hc
        · exact ⟨['+'], body, Or.inr rfl, heq, hbody⟩

theorem Entity.lookup_nil (k : Attribute) : Entity.lookup [] k = none := rfl

theorem Entity.lookup_cons (p : Attribute × Value) (e : Entity) (k : Attribute) :
    Entity.lookup (p :: e) k = if p.1 = k then some p.2 else e.lookup k := by
  by_cases h : p.1 = k
  · simp [Entity.lookup, List.find?_cons_of_pos, h]
  · simp [Entity.lookup, List.find?_cons_of_neg, h]

theorem Entity.lookup_removeKey (e : Entity) (k k' : Attribute) :
    (e.removeKey k').lookup k = if k = k' then none else e.lookup k := by
  induction e with
  | nil =>
    simp only [Entity.removeKey, List.filter_nil, Entity.lookup_nil]
    split <;> rfl
  | cons p e ih =>
    simp only [Entity.removeKey, List.filter_cons] at *
    by_cases h1 : p.1 = k'
    · rw [if_neg (by simp [h1]), ih]
      by_cases h2 : k = k'
      · simp [h2]
      · have hp : p.1 ≠ k := by rw [h1]; exact Ne.symm h2
        rw [if_neg h2, if_neg h2, Entity.lookup_cons, if_neg hp]
    · rw [if_pos (by simp [h1]), Entity.lookup_cons, Entity.lookup_cons, ih]
      by_cases h2 : k = k'
      · have hp : p.1 ≠ k := by rw [h2]; exact h1
        rw [if_pos h2, if_pos h2, if_neg hp]
      · rw [if_neg h2, if_neg h2]

theorem Entity.lookup_append (e1 e2 : Entity) (k : Attribute) :
    Entity.lookup (e1 ++ e2) k = (e1.lookup k).or (e2.lookup k) := by
  unfold Entity.lookup
  rw [List.find?_append]
  cases e1.find? (fun p => p.1 = k) <;> simp

theorem Entity.lookup_insertKey (e : Entity) (k k' : Attribute) (v : Value) :
    (e.insertKey k' v).lookup k = if k = k' then some v else e.lookup k := by
  unfold Entity.insertKey
  rw [Entity.lookup_append, Entity.lookup_removeKey]
  by_cases h : k = k'
  · simp [h, Entity.lookup_cons]
  · rw [if_neg h, if_neg h, Entity.lookup_cons, if_neg (Ne.symm h), Entity.lookup_nil,
      Option.or_none]

theorem Entity.merge_nil (e : Entity) : e.merge [] = e := rfl

theorem Entity.merge_cons (e : Entity) (p : Attribute × Value) (u : Entity) :
    e.merge (p :: u) =
      (match p.2 with
        | Value.null => e.removeKey p.1
        | _ => e.insertKey p.1 p.2).merge u := rfl

theorem Entity.lookup_merge_of_not_mem (u : Entity) (k : Attribute)
    (h : ∀ p ∈ u, p.1 ≠ k) : ∀ e : Entity, (e.merge u).lookup k = e.lookup k := by
  induction u with
  | nil => intro e; rfl
  | cons p u ih =>
    intro e
    have hp : p.1 ≠ k := h p (List.mem_cons_self p u)
    have h' : ∀ q ∈ u, q.1 ≠ k := fun q hq => h q (List.mem_cons_of_mem p hq)
    have hk : ¬ k = p.1 := Ne.symm hp
    rw [Entity.merge_cons]
    rcases p with ⟨k0, v0⟩
    cases v0 <;> dsimp only <;> rw [ih h'] <;>
      first
        | rw [Entity.lookup_removeKey, if_neg hk]
        | rw [Entity.lookup_insertKey, if_neg hk]

/-- C5: after `e.merge(u)` with distinct keys in the update `u`: a key mapped
to `Null` in `u` is absent from the result; a key mapped to any non-`Null`
value in `u` maps to exactly that value; and a key not present in `u` keeps
its value from `e` (present or absent) unchanged. -/
theorem entity_merge_spec (e u : Entity) (hu : (u.map Prod.fst).Nodup) (k : Attribute) :
    (u.lookup k = some .null → (e.merge u).lookup k = none)
    ∧ (∀ v, v ≠ Value.null → u.lookup k = some v → (e.merge u).lookup k = some v)
    ∧ (u.lookup k = none → (e.merge u).lookup k = e.lookup k) := by
  induction u generalizing e with
  | nil =>
    refine ⟨?_, ?_, ?_⟩
    · intro h; cases h
    · intro v hv h; cases h
    · intro _; rfl
  | cons p u ih =>
    rw [List.map_cons, List.nodup_cons] at hu
    rw [Entity.merge_cons, Entity.lookup_cons]
    rcases p with ⟨k0, v0⟩
    dsimp only at hu ⊢
    by_cases hk : k0 = k
    · subst hk
      have hnot : ∀ q ∈ u, q.1 ≠ k0 := by
        intro q hq hq1
        have hmem : q.1 ∈ List.map Prod.fst u := List.mem_map_of_mem Prod.fst hq
        rw [hq1] at hmem
        exact hu.1 hmem
      rw [if_pos rfl]
      refine ⟨?_, ?_, ?_⟩
      · rintro ⟨rfl⟩
        dsimp only
        rw [Entity.lookup_merge_of_not_mem u k0 hnot, Entity.lookup_removeKey, if_pos rfl]
      · rintro v hv ⟨rfl⟩
        rw [Entity.lookup_merge_of_not_mem u k0 hnot]
        cases v0 <;> first
          | exact absurd rfl hv
          | (dsimp only; rw [Entity.lookup_insertKey, if_pos rfl])
      · intro h; cases h
    · rw [if_neg hk]
      have base :
          (match v0 with
            | Value.null => e.removeKey k0
            | _ => e.insertKey k0 v0).lookup k = e.lookup k := by
        have hkk : ¬ k = k0 := fun hh => hk hh.symm
        cases v0 <;> dsimp only <;>
          first
            | rw [Entity.lookup_removeKey, if_neg hkk]
            | rw [Entity.lookup_insertKey, if_neg hkk]
      refine ⟨?_, ?_, ?_⟩
      · intro h
        exact (ih _ hu.2).1 h
      · intro v hv h
        exact (ih _ hu.2).2.1 v hv h
      · intro h
        rw [(ih _ hu.2).2.2 h, base]

/-- Witness for C5 at the spec's merge example: base `{a: 1, b: "x"}`,
update `{b: Null, c: true}`, queried at key `b`. -/
theorem entity_merge_spec_witness :
    (([(['b'], Value.null), (['c'], Value.bool true)] : Entity).map Prod.fst).Nodup
    ∧ ((Entity.lookup [(['b'], Value.null), (['c'], Value.bool true)] ['b'] = some .null →
        (Entity.merge [(['a'], Value.int 1), (['b'], Value.string ['x'])]
          [(['b'], Value.null), (['c'], Value.bool true)]).lookup ['b'] = none)
      ∧ (∀ v, v ≠ Value.null →
          Entity.lookup [(['b'], Value.null), (['c'], Value.bool true)] ['b'] = some v →
          (Entity.merge [(['a'], Value.int 1), (['b'], Value.string ['x'])]
            [(['b'], Value.null), (['c'], Value.bool true)]).lookup ['b'] = some v)
      ∧ (Entity.lookup [(['b'], Value.null), (['c'], Value.bool true)] ['b'] = none →
          (Entity.merge [(['a'], Value.int 1), (['b'], Value.string ['x'])]
            [(['b'], Value.null), (['c'], Value.bool true)]).lookup ['b'] =
            Entity.lookup [(['a'], Value.int 1), (['b'], Value.string ['x'])] ['b'])) :=
  ⟨by decide,
    entity_merge_spec [(['a'], Value.int 1), (['b'], Value.string ['x'])]
      [(['b'], Value.null), (['c'], Value.bool true)] (by decide) ['b']⟩
theorem strLt_irrefl : ∀ s : Str, strLt s s = false
  | [] => rfl
  | c :: cs => by
    rw [strLt, if_neg (lt_irrefl c), if_neg (lt_irrefl c)]
    exact strLt_irrefl cs

theorem strLt_trans : ∀ a b c : Str, strLt a b = true → strLt b c = true → strLt a c = true := by
  intro a
  induction a with
  | nil =>
    intro b c hab hbc
    cases b with
    | nil => simp [strLt] at hab
    | cons d ds =>
      cases c with
      | nil => simp [strLt] at hbc
      | cons e es => rfl
  | cons x xs ih =>
    intro b c hab hbc
    cases b with
    | nil => simp [strLt] at hab
    | cons y ys =>
      cases c with
      | nil => simp [strLt] at hbc
      | cons z zs =>
        rw [strLt] at hab hbc ⊢
        by_cases h1 : x < y
        · by_cases h2 : y < z
          · rw [if_pos (lt_trans h1 h2)]
          · rw [if_neg h2] at hbc
            by_cases h3 : z < y
            · rw [if_pos h3] at hbc; simp at hbc
            · have hyz : y = z := le_antisymm (not_lt.mp h3) (not_lt.mp h2)
              rw [if_pos (hyz ▸ h1)]
        · rw [if_neg h1] at hab
          by_cases h1' : y < x
          · rw [if_pos h1'] at hab; simp at hab
          · rw [if_neg h1'] at hab
            have hxy : x = y := le_antisymm (not_lt.mp h1') (not_lt.mp h1)
            subst hxy
            by_cases h2 : x < z
            · rw [if_pos h2]
            · rw [if_neg h2] at hbc ⊢
              by_cases h3 : z < x
              · rw [if_pos h3] at hbc; simp at hbc
              · rw [if_neg h3] at hbc ⊢
                exact ih ys zs hab hbc

theorem strLt_asymm (a b : Str) (h : strLt a b = true) : strLt b a = false := by
  by_contra hc
  have hba : strLt b a = true := by revert hc; cases strLt b a <;> simp
  have haa := strLt_trans a b a h hba
  rw [strLt_irrefl] at haa
  simp at haa

theorem strLt_trichotomy : ∀ a b : Str, strLt a b = true ∨ a = b ∨ strLt b a = true := by
  intro a
  induction a with
  | nil =>
    intro b
    cases b with
    | nil => exact Or.inr (Or.inl rfl)
    | cons d ds => exact Or.inl rfl
  | cons x xs ih =>
    intro b
    cases b with
    | nil => exact Or.inr (Or.inr rfl)
    | cons y ys =>
      rcases lt_trichotomy x y with h | h | h
      · left; rw [strLt, if_pos h]
      · subst h
        rcases ih ys with h2 | h2 | h2
        · left; rw [strLt, if_neg (lt_irrefl x), if_neg (lt_irrefl x)]; exact h2
        · right; left; rw [h2]
        · right; right; rw [strLt, if_neg (lt_irrefl x), if_neg (lt_irrefl x)]; exact h2
      · right; right; rw [strLt, if_pos h]

theorem strLt_of_ne_of_not_lt (a b : Str) (h1 : strLt a b = false) (h2 : ¬ a = b) :
    strLt b a = true := by
  rcases strLt_trichotomy a b with h | h | h
  · rw [h1] at h; simp at h
  · exact absurd h h2
  · exact h
theorem mem_btreeInsert_weak :
    ∀ (m : List (Str × QValue)) (q : Str × QValue) (k : Str) (v : QValue),
      q ∈ btreeInsert k v m → q = (k, v) ∨ q ∈ m := by
  intro m
  induction m with
  | nil =>
    intro q k v hq
    rw [btreeInsert] at hq
    simp at hq
    exact Or.inl hq
  | cons p m ih =>
    intro q k v hq
    rw [btreeInsert] at hq
    split_ifs at hq
    · rcases List.mem_cons.mp hq with rfl | hq
      · exact Or.inl rfl
      · exact Or.inr hq
    · rcases List.mem_cons.mp hq with rfl | hq
      · exact Or.inl rfl
      · exact Or.inr (List.mem_cons_of_mem p hq)
    · rcases List.mem_cons.mp hq with rfl | hq
      · exact Or.inr (List.mem_cons_self p m)
      · rcases ih q k v hq with h | h
        · exact Or.inl h
        · exact Or.inr (List.mem_cons_of_mem p h)

theorem btreeInsert_pairwise :
    ∀ (m : List (Str × QValue)) (k : Str) (v : QValue),
      List.Pairwise (fun p q => strLt p.1 q.1 = true) m →
      List.Pairwise (fun p q => strLt p.1 q.1 = true) (btreeInsert k v m) := by
  intro m
  induction m with
  | nil =>
    intro k v _
    rw [btreeInsert]
    simp
  | cons p m ih =>
    intro k v hm
    rw [List.pairwise_cons] at hm
    rw [btreeInsert]
    split_ifs with h1 h2
    · rw [List.pairwise_cons]
      refine ⟨?_, List.pairwise_cons.mpr hm⟩
      intro q hq
      rcases List.mem_cons.mp hq with rfl | hq
      · exact h1
      · exact strLt_trans _ _ _ h1 (hm.1 q hq)
    · rw [List.pairwise_cons]
      refine ⟨?_, hm.2⟩
      intro q hq
      rw [h2]
      exact hm.1 q hq
    · rw [List.pairwise_cons]
      refine ⟨?_, ih k v hm.2⟩
      intro q hq
      rcases mem_btreeInsert_weak m q k v hq with rfl | hq
      · exact strLt_of_ne_of_not_lt k p.1 (by revert h1; cases strLt k p.1 <;> simp) h2
      · exact hm.1 q hq

theorem mem_btreeInsert (m : List (Str × QValue))
    (hm : List.Pairwise (fun p q => strLt p.1 q.1 = true) m) (k : Str) (v : QValue) :
    ∀ k0 v0, (k0, v0) ∈ btreeInsert k v m ↔
      (k0 = k ∧ v0 = v) ∨ ((k0, v0) ∈ m ∧ k0 ≠ k) := by
  induction m with
  | nil =>
    intro k0 v0
    rw [btreeInsert]
    simp [Prod.ext_iff]
  | cons p m ih =>
    rw [List.pairwise_cons] at hm
    intro k0 v0
    rw [btreeInsert]
    split_ifs with h1 h2
    · constructor
      · intro hq
        rcases List.mem_cons.mp hq with heq | hq
        · rw [Prod.mk.injEq] at heq
          exact Or.inl heq
        · right
          refine ⟨hq, ?_⟩
          rcases List.mem_cons.mp hq with heq | hq'
          · have hk0 : k0 = p.1 := congrArg Prod.fst heq
            intro he
            rw [he] at hk0
            rw [← hk0, strLt_irrefl] at h1
            simp at h1
          · have hlt : strLt k (k0, v0).1 = true :=
              strLt_trans _ _ _ h1 (hm.1 _ hq')
            intro he
            rw [he, strLt_irrefl] at hlt
            simp at hlt
      · rintro (⟨rfl, rfl⟩ | ⟨hq, -⟩)
        · exact List.mem_cons_self _ _
        · exact List.mem_cons_of_mem _ hq
    · subst h2
      constructor
      · intro hq
        rcases List.mem_cons.mp hq with heq | hq
        · rw [Prod.mk.injEq] at heq
          exact Or.inl heq
        · right
          refine ⟨List.mem_cons_of_mem p hq, ?_⟩
          intro he
          have hlt := hm.1 _ hq
          rw [he, strLt_irrefl] at hlt
          simp at hlt
      · rintro (⟨rfl, rfl⟩ | ⟨hq, hne⟩)
        · exact List.mem_cons_self _ _
        · rcases List.mem_cons.mp hq with heq | hq
          · exact absurd (congrArg Prod.fst heq) hne
          · exact List.mem_cons_of_mem _ hq
    · constructor
      · intro hq
        rcases List.mem_cons.mp hq with heq | hq
        · right
          constructor
          · rw [heq]; exact List.mem_cons_self _ _
          · have hk0 : k0 = p.1 := congrArg Prod.fst heq
            intro he
            rw [he] at hk0
            exact h2 hk0
        · rcases (ih hm.2 k0 v0).mp hq with h | ⟨hq2, hne⟩
          · exact Or.inl h
          · exact Or.inr ⟨List.mem_cons_of_mem p hq2, hne⟩
      · rintro (⟨rfl, rfl⟩ | ⟨hq, hne⟩)
        · exact List.mem_cons_of_mem p ((ih hm.2 k0 v0).mpr (Or.inl ⟨rfl, rfl⟩))
        · rcases List.mem_cons.mp hq with heq | hq
          · rw [heq]; exact List.mem_cons_self _ _
          · exact List.mem_cons_of_mem p ((ih hm.2 k0 v0).mpr (Or.inr ⟨hq, hne⟩))
theorem entityFold_pairwise :
    ∀ (e : Entity) (m0 : List (Str × QValue)),
      List.Pairwise (fun p q => strLt p.1 q.1 = true) m0 →
      List.Pairwise (fun p q => strLt p.1 q.1 = true)
        (e.foldl (fun fields p => btreeInsert p.1 (toQueryValue p.2) fields) m0) := by
  intro e
  induction e with
  | nil => intro m0 h; exact h
  | cons x e ih =>
    intro m0 h
    rw [List.foldl_cons]
    exact ih _ (btreeInsert_pairwise m0 x.1 (toQueryValue x.2) h)

theorem mem_entityFold :
    ∀ (e : Entity), (e.map Prod.fst).Nodup →
      ∀ (m0 : List (Str × QValue)),
        List.Pairwise (fun p q => strLt p.1 q.1 = true) m0 →
        ∀ (k : Str) (v : QValue),
          (k, v) ∈ e.foldl (fun fields p => btreeInsert p.1 (toQueryValue p.2) fields) m0 ↔
            (∃ w, (k, w) ∈ e ∧ v = toQueryValue w) ∨ ((k, v) ∈ m0 ∧ k ∉ e.map Prod.fst) := by
  intro e
  induction e with
  | nil =>
    intro _ m0 _ k v
    simp
  | cons x e ih =>
    intro hnd m0 hm0 k v
    rw [List.map_cons, List.nodup_cons] at hnd
    rw [List.foldl_cons,
      ih hnd.2 _ (btreeInsert_pairwise m0 x.1 (toQueryValue x.2) hm0) k v,
      mem_btreeInsert m0 hm0 x.1 (toQueryValue x.2) k v]
    constructor
    · rintro (⟨w, hw, rfl⟩ | ⟨⟨rfl, rfl⟩ | ⟨hm, hne⟩, hnot⟩)
      · exact Or.inl ⟨w, List.mem_cons_of_mem x hw, rfl⟩
      · exact Or.inl ⟨x.2, by rw [Prod.mk.eta]; exact List.mem_cons_self x e, rfl⟩
      · refine Or.inr ⟨hm, ?_⟩
        rw [List.map_cons]
        intro hmem
        rcases List.mem_cons.mp hmem with h | h
        · exact hne h
        · exact hnot h
    · rintro (⟨w, hw, rfl⟩ | ⟨hm, hnot⟩)
      · rcases List.mem_cons.mp hw with heq | hw2
        · have hk : k = x.1 := congrArg Prod.fst heq
          have hw2 : w = x.2 := congrArg Prod.snd heq
          refine Or.inr ⟨Or.inl ⟨hk, by rw [hw2]⟩, ?_⟩
          rw [hk]
          exact hnd.1
        · exact Or.inl ⟨w, hw2, rfl⟩
      · rw [List.map_cons] at hnot
        have h1 : k ≠ x.1 := fun he => hnot (he ▸ List.mem_cons_self x.1 _)
        have h2 : k ∉ List.map Prod.fst e := fun he => hnot (List.mem_cons_of_mem _ he)
        exact Or.inr ⟨Or.inr ⟨hm, h1⟩, h2⟩

theorem sorted_eq_of_mem_iff :
    ∀ (l1 l2 : List (Str × QValue)),
      List.Pairwise (fun p q => strLt p.1 q.1 = true) l1 →
      List.Pairwise (fun p q => strLt p.1 q.1 = true) l2 →
      (∀ q, q ∈ l1 ↔ q ∈ l2) → l1 = l2 := by
  intro l1
  induction l1 with
  | nil =>
    intro l2 _ _ hiff
    cases l2 with
    | nil => rfl
    | cons y t2 => exact absurd ((hiff y).mpr (List.mem_cons_self y t2)) (List.not_mem_nil y)
  | cons x t1 ih =>
    intro l2 h1 h2 hiff
    cases l2 with
    | nil => exact absurd ((hiff x).mp (List.mem_cons_self x t1)) (List.not_mem_nil x)
    | cons y t2 =>
      rw [List.pairwise_cons] at h1 h2
      have hxy : x = y := by
        rcases List.mem_cons.mp ((hiff x).mp (List.mem_cons_self x t1)) with h | hx2
        · exact h
        · rcases List.mem_cons.mp ((hiff y).mpr (List.mem_cons_self y t2)) with h | hy1
          · exact h.symm
          · have ha := h2.1 x hx2
            have hb := h1.1 y hy1
            have hc := strLt_asymm _ _ hb
            rw [hc] at ha
            simp at ha
      subst hxy
      congr 1
      apply ih t2 h1.2 h2.2
      intro q
      constructor
      · intro hq
        rcases List.mem_cons.mp ((hiff q).mp (List.mem_cons_of_mem x hq)) with heq | h
        · have hx := h1.1 q hq
          rw [heq, strLt_irrefl] at hx
          simp at hx
        · exact h
      · intro hq
        rcases List.mem_cons.mp ((hiff q).mpr (List.mem_cons_of_mem x hq)) with heq | h
        · have hx := h2.1 q hq
          rw [heq, strLt_irrefl] at hx
          simp at hx
        · exact h

/-- C6: converting an entity with distinct attribute names to the untyped
ordered object converts each `(attribute, value)` pair via the typed-to-untyped
conversion, yields entries strictly sorted by attribute name in the
locale-independent codepoint order, and gives the same result for every
iteration order (permutation) of the entity's entries. -/
theorem entity_to_ordered_object (e e' : Entity) (hp : e.Perm e')
    (hnd : (e.map Prod.fst).Nodup) :
    entityToQValue e = entityToQValue e'
    ∧ ∃ fields, entityToQValue e = QValue.object fields
      ∧ List.Pairwise (fun p q => strLt p.1 q.1 = true) fields
      ∧ (∀ k v, (k, v) ∈ fields ↔ ∃ w, (k, w) ∈ e ∧ v = toQueryValue w) := by
  have hnd' : (e'.map Prod.fst).Nodup := (hp.map Prod.fst).nodup hnd
  have hs1 := entityFold_pairwise e [] List.Pairwise.nil
  have hs2 := entityFold_pairwise e' [] List.Pairwise.nil
  have heq :
      e.foldl (fun fields p => btreeInsert p.1 (toQueryValue p.2) fields) [] =
      e'.foldl (fun fields p => btreeInsert p.1 (toQueryValue p.2) fields) [] := by
    apply sorted_eq_of_mem_iff _ _ hs1 hs2
    rintro ⟨k, v⟩
    rw [mem_entityFold e hnd [] List.Pairwise.nil k v,
      mem_entityFold e' hnd' [] List.Pairwise.nil k v]
    simp only [List.not_mem_nil, false_and, or_false]
    constructor
    · rintro ⟨w, hw, rfl⟩
      exact ⟨w, hp.mem_iff.mp hw, rfl⟩
    · rintro ⟨w, hw, rfl⟩
      exact ⟨w, hp.mem_iff.mpr hw, rfl⟩
  refine ⟨congrArg QValue.object heq, _, rfl, hs1, ?_⟩
  intro k v
  rw [mem_entityFold e hnd [] List.Pairwise.nil k v]
  simp only [List.not_mem_nil, false_and, or_false]

/-- Witness for C6 at the spec's example entity `{z: 1, a: 2}` in both
iteration orders. -/
theorem entity_to_ordered_object_witness :
    (([((['z'] : Str), Value.int 1), ((['a'] : Str), Value.int 2)] : Entity).Perm
        [((['a'] : Str), Value.int 2), ((['z'] : Str), Value.int 1)])
    ∧ (([((['z'] : Str), Value.int 1), ((['a'] : Str), Value.int 2)] : Entity).map
        Prod.fst).Nodup
    ∧ (entityToQValue [((['z'] : Str), Value.int 1), ((['a'] : Str), Value.int 2)] =
        entityToQValue [((['a'] : Str), Value.int 2), ((['z'] : Str), Value.int 1)]
      ∧ ∃ fields,
          entityToQValue [((['z'] : Str), Value.int 1), ((['a'] : Str), Value.int 2)] =
            QValue.object fields
          ∧ List.Pairwise (fun p q => strLt p.1 q.1 = true) fields
          ∧ (∀ k v, (k, v) ∈ fields ↔
              ∃ w, (k, w) ∈ ([((['z'] : Str), Value.int 1), ((['a'] : Str), Value.int 2)] :
                Entity) ∧ v = toQueryValue w)) :=
  ⟨List.Perm.swap ((['a'] : Str), Value.int 2) ((['z'] : Str), Value.int 1) [],
    by decide,
    entity_to_ordered_object
      [((['z'] : Str), Value.int 1), ((['a'] : Str), Value.int 2)]
      [((['a'] : Str), Value.int 2), ((['z'] : Str), Value.int 1)]
      (List.Perm.swap ((['a'] : Str), Value.int 2) ((['z'] : Str), Value.int 1) [])
      (by decide)⟩
